import Mathlib

/-!
Verification of the concord-khldl burst-matching tools.

The development shallowly embeds the two functions the claims are about:

* anisotropy (src/anisotropy.py): maps an inclination angle to the pair of
  burst / persistent anisotropy factors, with an analytic model (fuji88),
  a tabulated interpolated model (he16), and an error branch for any other
  model name.  Python floats are modelled as real numbers; the numpy
  behaviour of dividing a positive number by zero (yielding inf) is kept
  explicit through the PyVal type.  The he16 reference table
  (anisotropy_he16.txt) is not part of the source tree, so the table is a
  parameter of the embedding and the scipy interp1d interpolator is
  modelled from its documented semantics (piecewise linear, raising a
  ValueError outside the tabulated domain).

* setup_positions (src/ctools.py): builds the initial MCMC walker
  positions from an initial parameter guess plus one time-shift entry per
  observed burst.  The in-place list mutation of the Python source is
  additionally embedded against a small heap model to settle the
  frame-effect claim about the params0 argument.
-/

namespace Concord

/-- A Python/numpy floating-point result: a finite real, or positive
infinity as produced by numpy when a positive number is divided by zero. -/
inductive PyVal where
  | fin : ℝ → PyVal
  | inf : PyVal

/-- The numpy quotient a/b of a positive numerator a: infinity when the
denominator is zero, the real quotient otherwise. -/
noncomputable def pyDiv (a b : ℝ) : PyVal :=
  if b = 0 then PyVal.inf else PyVal.fin (a / b)

/-- An astropy angle unit. -/
inductive AngleUnit where
  | degree
  | radian

/-- The inclination argument of anisotropy: either a bare number (no unit
attribute) or a quantity carrying an angle unit. -/
inductive Incl where
  | bare : ℝ → Incl
  | quantity : ℝ → AngleUnit → Incl

/-- The angle in radians that np.cos actually receives.  A bare number is
first tagged with u.degree by the source (theta *= u.degree), and numpy
converts a degree quantity to radians before taking the cosine. -/
noncomputable def Incl.toRadians : Incl → ℝ
  | Incl.bare x => x * Real.pi / 180
  | Incl.quantity x AngleUnit.degree => x * Real.pi / 180
  | Incl.quantity x AngleUnit.radian => x

/-- The angle in degrees, as produced by theta.to(u.degree) and fed to the
he16 interpolator. -/
noncomputable def Incl.toDegrees : Incl → ℝ
  | Incl.bare x => x
  | Incl.quantity x AngleUnit.degree => x
  | Incl.quantity x AngleUnit.radian => x * 180 / Real.pi

/-- Whether the argument has no unit attribute (hasattr(inclination,
'unit') == False in the source). -/
def Incl.isBare : Incl → Bool
  | Incl.bare _ => true
  | Incl.quantity _ _ => false

/-- One row of the he16 reference table: inclination in degrees and the
three tabulated inverse factors (disk, reflection, persistent). -/
structure Row where
  x : ℝ
  d : ℝ
  r : ℝ
  p : ℝ

/-- Modelled from the spec: the piecewise-linear interpolator that scipy
interp1d builds over the he16 reference table, the table file
anisotropy_he16.txt not being part of the source tree.  It returns the
three inverse factors interpolated at the query angle, and none (interp1d
raises a ValueError) when the query lies outside the tabulated domain. -/
noncomputable def interpTable : List Row → ℝ → Option (ℝ × ℝ × ℝ)
  | [], _ => none
  | [a], q => if q = a.x then some (a.d, a.r, a.p) else none
  | a :: b :: rest, q =>
      if q < a.x then none
      else if q ≤ b.x then
        some (a.d + (b.d - a.d) * ((q - a.x) / (b.x - a.x)),
              a.r + (b.r - a.r) * ((q - a.x) / (b.x - a.x)),
              a.p + (b.p - a.p) * ((q - a.x) / (b.x - a.x)))
      else interpTable (b :: rest) q

/-- The value anisotropy hands back: a pair of factors, the null pair
(None, None) of the unknown-model branch, or a raised exception. -/
inductive AniRet where
  | pair : PyVal → PyVal → AniRet
  | nullPair : AniRet
  | raise : AniRet

/-- The warning printed when the inclination carries no unit. -/
def warnMsg : String := "** WARNING ** assuming inclination in degrees"

/-- The error printed for an unimplemented model name. -/
def errMsg (model : String) : String :=
  "** ERROR ** model " ++ model ++ " not yet implemented!"

/-- The anisotropy function of src/anisotropy.py.  tbl is the parsed
content of the static reference table file, cache the process-wide global
anisotropy_he16 (none before the first tabulated call).  The result is
the returned value, the cache state after the call, and the list of
messages printed during the call. -/
noncomputable def anisotropy (tbl : List Row) (cache : Option (List Row))
    (inc : Incl) (model : String) :
    AniRet × Option (List Row) × List String :=
  let msgs : List String := if inc.isBare then [warnMsg] else []
  if model = "fuji88" then
    (AniRet.pair (pyDiv 1 (0.5 + |Real.cos inc.toRadians|))
                 (pyDiv 0.5 |Real.cos inc.toRadians|), cache, msgs)
  else if model = "he16" then
    let t := cache.getD tbl
    match interpTable t inc.toDegrees with
    | none => (AniRet.raise, some t, msgs)
    | some (invd, invr, invp) =>
        (AniRet.pair (pyDiv 1 (invd + invr)) (pyDiv 1 invp), some t, msgs)
  else
    (AniRet.nullPair, cache, msgs ++ [errMsg model])

/-- Unfolding of the tabulated he16 branch of anisotropy. -/
theorem anisotropy_he16_unfold (tbl : List Row) (cache : Option (List Row))
    (inc : Incl) :
    anisotropy tbl cache inc "he16" =
      match interpTable (cache.getD tbl) inc.toDegrees with
      | none => (AniRet.raise, some (cache.getD tbl),
                 if inc.isBare then [warnMsg] else [])
      | some (invd, invr, invp) =>
          (AniRet.pair (pyDiv 1 (invd + invr)) (pyDiv 1 invp),
           some (cache.getD tbl),
           if inc.isBare then [warnMsg] else []) := rfl

end Concord

namespace Concord

/-- C1: for every inclination θ in [0°, 90°), the analytic fuji88 model
returns finite factors xi_burst = 1/(0.5+|cos θ|) and
xi_persistent = 0.5/|cos θ|, both strictly positive, and
xi_burst * (0.5+|cos θ|) = 1. -/
theorem anisotropy_fuji88_values (tbl : List Row) (cache : Option (List Row))
    (θ : ℝ) (h0 : 0 ≤ θ) (h90 : θ < 90) :
    ∃ b p : ℝ,
      (anisotropy tbl cache (Incl.quantity θ AngleUnit.degree) "fuji88").1 =
        AniRet.pair (PyVal.fin b) (PyVal.fin p) ∧
      b = 1 / (0.5 + |Real.cos (θ * Real.pi / 180)|) ∧
      p = 0.5 / |Real.cos (θ * Real.pi / 180)| ∧
      0 < b ∧ 0 < p ∧
      b * (0.5 + |Real.cos (θ * Real.pi / 180)|) = 1 := by
  have hπ : 0 < Real.pi := Real.pi_pos
  have hcos : 0 < Real.cos (θ * Real.pi / 180) := by
    apply Real.cos_pos_of_mem_Ioo
    constructor
    · have h1 : 0 ≤ θ * Real.pi / 180 := by positivity
      have h2 : -(Real.pi / 2) < 0 := by linarith
      linarith
    · have : θ * Real.pi / 180 < 90 * Real.pi / 180 := by
        apply div_lt_div_of_pos_right _ (by norm_num)
        exact mul_lt_mul_of_pos_right h90 hπ
      calc θ * Real.pi / 180 < 90 * Real.pi / 180 := this
        _ = Real.pi / 2 := by ring
  have habs : |Real.cos (θ * Real.pi / 180)| = Real.cos (θ * Real.pi / 180) :=
    abs_of_pos hcos
  have hden1 : (0.5 : ℝ) + |Real.cos (θ * Real.pi / 180)| ≠ 0 := by
    rw [habs]; positivity
  have hden2 : |Real.cos (θ * Real.pi / 180)| ≠ 0 := by
    rw [habs]; exact ne_of_gt hcos
  refine ⟨1 / (0.5 + |Real.cos (θ * Real.pi / 180)|),
          0.5 / |Real.cos (θ * Real.pi / 180)|, ?_, rfl, rfl, ?_, ?_, ?_⟩
  · simp only [anisotropy, Incl.isBare, Incl.toRadians, if_true]
    simp only [pyDiv, if_neg hden1, if_neg hden2]
  · apply div_pos one_pos
    rw [habs]; positivity
  · apply div_pos (by norm_num)
    rw [habs]; exact hcos
  · exact one_div_mul_cancel hden1

/-- Witness for C1 at the concrete inclination θ = 0 degrees. -/
theorem anisotropy_fuji88_values_witness :
    ∃ b p : ℝ,
      (anisotropy [] none (Incl.quantity 0 AngleUnit.degree) "fuji88").1 =
        AniRet.pair (PyVal.fin b) (PyVal.fin p) ∧
      b = 1 / (0.5 + |Real.cos (0 * Real.pi / 180)|) ∧
      p = 0.5 / |Real.cos (0 * Real.pi / 180)| ∧
      0 < b ∧ 0 < p ∧
      b * (0.5 + |Real.cos (0 * Real.pi / 180)|) = 1 :=
  anisotropy_fuji88_values [] none 0 (le_refl 0) (by norm_num)

/-- C4: at the singular inclination θ = 90° the analytic model's
persistent factor is a division by zero, returned as positive infinity
(numpy semantics), not a silently wrong finite number; the burst factor
is the regular value 1/(0.5+0) = 2. -/
theorem anisotropy_fuji88_singular (tbl : List Row)
    (cache : Option (List Row)) :
    (anisotropy tbl cache (Incl.quantity 90 AngleUnit.degree) "fuji88").1 =
      AniRet.pair (PyVal.fin 2) PyVal.inf := by
  have hrad : (90 : ℝ) * Real.pi / 180 = Real.pi / 2 := by ring
  have hc : Real.cos ((90 : ℝ) * Real.pi / 180) = 0 := by
    rw [hrad]; exact Real.cos_pi_div_two
  simp only [anisotropy, Incl.isBare, Incl.toRadians, if_true]
  rw [hc]
  simp only [abs_zero, add_zero, pyDiv]
  norm_num

/-- C9: the analytic fuji88 model is invariant under negating the
inclination and under replacing it by its supplement 180° − θ, because it
depends on the angle only through the absolute cosine. -/
theorem anisotropy_fuji88_symm (tbl : List Row) (cache : Option (List Row))
    (θ : ℝ) :
    (anisotropy tbl cache (Incl.quantity (-θ) AngleUnit.degree) "fuji88").1 =
      (anisotropy tbl cache (Incl.quantity θ AngleUnit.degree) "fuji88").1 ∧
    (anisotropy tbl cache (Incl.quantity (180 - θ) AngleUnit.degree) "fuji88").1 =
      (anisotropy tbl cache (Incl.quantity θ AngleUnit.degree) "fuji88").1 := by
  have hneg : |Real.cos (-θ * Real.pi / 180)| = |Real.cos (θ * Real.pi / 180)| := by
    have : -θ * Real.pi / 180 = -(θ * Real.pi / 180) := by ring
    rw [this, Real.cos_neg]
  have hsup : |Real.cos ((180 - θ) * Real.pi / 180)| = |Real.cos (θ * Real.pi / 180)| := by
    have : (180 - θ) * Real.pi / 180 = Real.pi - θ * Real.pi / 180 := by ring
    rw [this, Real.cos_pi_sub, abs_neg]
  constructor
  · simp only [anisotropy, Incl.isBare, Incl.toRadians, if_true]
    rw [hneg]
  · simp only [anisotropy, Incl.isBare, Incl.toRadians, if_true]
    rw [hsup]

/-- C7: an inclination given as a bare number is treated as the same
angle tagged with degrees, for every model: the returned value and the
cache state agree with the degree-quantity call, and the implicit
convention is announced by printing the degree warning. -/
theorem anisotropy_bare_is_degrees (tbl : List Row)
    (cache : Option (List Row)) (x : ℝ) (model : String) :
    (anisotropy tbl cache (Incl.bare x) model).1 =
      (anisotropy tbl cache (Incl.quantity x AngleUnit.degree) model).1 ∧
    (anisotropy tbl cache (Incl.bare x) model).2.1 =
      (anisotropy tbl cache (Incl.quantity x AngleUnit.degree) model).2.1 ∧
    warnMsg ∈ (anisotropy tbl cache (Incl.bare x) model).2.2 := by
  have hrad : (Incl.bare x).toRadians =
      (Incl.quantity x AngleUnit.degree).toRadians := rfl
  have hdeg : (Incl.bare x).toDegrees =
      (Incl.quantity x AngleUnit.degree).toDegrees := rfl
  simp only [anisotropy, Incl.isBare, hrad, hdeg]
  by_cases h1 : model = "fuji88"
  · rw [if_pos h1, if_pos h1]
    simp
  · rw [if_neg h1, if_neg h1]
    by_cases h2 : model = "he16"
    · rw [if_pos h2, if_pos h2]
      cases hI : interpTable (cache.getD tbl)
          (Incl.quantity x AngleUnit.degree).toDegrees with
      | none => simp [hI]
      | some v =>
        obtain ⟨v1, v2, v3⟩ := v
        simp [hI]
    · rw [if_neg h2, if_neg h2]
      simp

/-- C2 counterexample: at the concrete unknown model name "foo" the
function does not fail; it returns the null pair (None, None). -/
theorem anisotropy_unknown_counterexample :
    (anisotropy [] none (Incl.quantity 45 AngleUnit.degree) "foo").1 =
      AniRet.nullPair := by
  simp only [anisotropy, Incl.isBare]
  rw [if_neg (by decide : ¬ ("foo" = "fuji88")),
      if_neg (by decide : ¬ ("foo" = "he16"))]

/-- C2 amended: for every model name other than fuji88 and he16, the
function prints an error message that contains the rejected model name
and returns the null pair (None, None), leaving the cache untouched; it
does not raise. -/
theorem anisotropy_unknown_nullPair (tbl : List Row)
    (cache : Option (List Row)) (inc : Incl) (model : String)
    (hf : model ≠ "fuji88") (hh : model ≠ "he16") :
    (anisotropy tbl cache inc model).1 = AniRet.nullPair ∧
    errMsg model ∈ (anisotropy tbl cache inc model).2.2 ∧
    (∃ pre post : String, errMsg model = pre ++ model ++ post) ∧
    (anisotropy tbl cache inc model).2.1 = cache := by
  refine ⟨?_, ?_, ⟨"** ERROR ** model ", " not yet implemented!", rfl⟩, ?_⟩
  · simp [anisotropy, hf, hh]
  · simp [anisotropy, hf, hh]
  · simp [anisotropy, hf, hh]

/-- Witness for the amended C2 at the concrete model name "foo". -/
theorem anisotropy_unknown_nullPair_witness :
    (anisotropy [] none (Incl.bare 10) "foo").1 = AniRet.nullPair ∧
    errMsg "foo" ∈ (anisotropy [] none (Incl.bare 10) "foo").2.2 ∧
    (∃ pre post : String, errMsg "foo" = pre ++ "foo" ++ post) ∧
    (anisotropy [] none (Incl.bare 10) "foo").2.1 = none :=
  anisotropy_unknown_nullPair [] none (Incl.bare 10) "foo"
    (by decide) (by decide)

/-- In a strictly increasing table every row of the tail lies strictly
above the head. -/
theorem chain_head_lt {l : List Row} {b : Row}
    (h : List.Chain' (fun u v => u.x < v.x) (b :: l)) :
    ∀ q ∈ l, b.x < q.x := by
  induction l generalizing b with
  | nil => intro q hq; simp at hq
  | cons c l' ih =>
    intro q hq
    rw [List.chain'_cons] at h
    rcases List.mem_cons.mp hq with rfl | hq'
    · exact h.1
    · exact lt_trans h.1 (ih h.2 q hq')

/-- The piecewise-linear interpolator is exact at the tabulated nodes: a
query equal to a grid point of a strictly increasing table evaluates to
that row's values. -/
theorem interpTable_node (tbl : List Row)
    (hs : List.Chain' (fun u v => u.x < v.x) tbl)
    (row : Row) (hm : row ∈ tbl) :
    interpTable tbl row.x = some (row.d, row.r, row.p) := by
  induction tbl with
  | nil => simp at hm
  | cons a tail ih =>
    cases tail with
    | nil =>
      rcases List.mem_cons.mp hm with rfl | h0
      · simp [interpTable]
      · simp at h0
    | cons b rest =>
      rw [List.chain'_cons] at hs
      have hab : a.x < b.x := hs.1
      rcases List.mem_cons.mp hm with rfl | hmem
      · simp only [interpTable]
        rw [if_neg (lt_irrefl row.x), if_pos (le_of_lt hab)]
        simp
      · have hbrow : b.x ≤ row.x := by
          rcases List.mem_cons.mp hmem with rfl | hr
          · exact le_refl _
          · exact le_of_lt (chain_head_lt hs.2 row hr)
        rcases eq_or_lt_of_le hbrow with heq | hlt
        · have hrb : row = b := by
            rcases List.mem_cons.mp hmem with rfl | hr
            · rfl
            · exact absurd (chain_head_lt hs.2 row hr)
                (by rw [heq]; exact lt_irrefl _)
          subst hrb
          simp only [interpTable]
          rw [if_neg (not_lt.mpr (le_of_lt hab)), if_pos (le_refl _)]
          have hzero : row.x - a.x ≠ 0 := ne_of_gt (sub_pos.mpr hab)
          rw [div_self hzero]
          simp only [Option.some.injEq, Prod.mk.injEq]
          refine ⟨by ring, by ring, by ring⟩
        · simp only [interpTable]
          rw [if_neg (not_lt.mpr (le_of_lt (lt_trans hab hlt))),
              if_neg (not_le.mpr hlt)]
          exact ih hs.2 hmem

/-- Queries below the first tabulated inclination are rejected. -/
theorem interpTable_below (a : Row) (tail : List Row) (q : ℝ)
    (hq : q < a.x) :
    interpTable (a :: tail) q = none := by
  cases tail with
  | nil =>
    simp only [interpTable]
    rw [if_neg (ne_of_lt hq)]
  | cons b rest =>
    simp only [interpTable]
    rw [if_pos hq]

/-- Queries above the last tabulated inclination are rejected. -/
theorem interpTable_above (tbl : List Row)
    (hs : List.Chain' (fun u v => u.x < v.x) tbl)
    (z : Row) (hlast : tbl.getLast? = some z) (q : ℝ) (hq : z.x < q) :
    interpTable tbl q = none := by
  induction tbl with
  | nil => simp at hlast
  | cons a tail ih =>
    cases tail with
    | nil =>
      have hz : z = a := by simpa [List.getLast?] using hlast.symm
      subst hz
      simp only [interpTable]
      rw [if_neg (ne_of_gt hq)]
    | cons b rest =>
      rw [List.getLast?_cons_cons] at hlast
      rw [List.chain'_cons] at hs
      have hab : a.x < b.x := hs.1
      have hzmem : z ∈ b :: rest :=
        List.mem_of_mem_getLast? (by rw [hlast]; exact rfl)
      have hbz : b.x ≤ z.x := by
        rcases List.mem_cons.mp hzmem with rfl | hr
        · exact le_refl _
        · exact le_of_lt (chain_head_lt hs.2 z hr)
      have hbq : b.x < q := lt_of_le_of_lt hbz hq
      simp only [interpTable]
      rw [if_neg (not_lt.mpr (le_of_lt (lt_trans hab hbq))),
          if_neg (not_le.mpr hbq)]
      exact ih hs.2 hlast

/-- C3: with an empty cache, a he16 query at a grid point of the strictly
increasing reference table returns exactly (1/(inv_xi_disk +
inv_xi_reflection), 1/inv_xi_persistent) computed from that table row. -/
theorem anisotropy_he16_node (tbl : List Row)
    (hs : List.Chain' (fun u v => u.x < v.x) tbl)
    (row : Row) (hm : row ∈ tbl) :
    (anisotropy tbl none (Incl.quantity row.x AngleUnit.degree) "he16").1 =
      AniRet.pair (pyDiv 1 (row.d + row.r)) (pyDiv 1 row.p) := by
  have hI : interpTable tbl (Incl.quantity row.x AngleUnit.degree).toDegrees =
      some (row.d, row.r, row.p) := interpTable_node tbl hs row hm
  simp [anisotropy_he16_unfold, hI]

/-- Witness for C3 at a concrete two-row table and its first node. -/
theorem anisotropy_he16_node_witness :
    (anisotropy [⟨0, 1, 2, 4⟩, ⟨90, 3, 5, 8⟩] none
        (Incl.quantity (Row.mk 0 1 2 4).x AngleUnit.degree) "he16").1 =
      AniRet.pair (pyDiv 1 ((Row.mk 0 1 2 4).d + (Row.mk 0 1 2 4).r))
        (pyDiv 1 (Row.mk 0 1 2 4).p) :=
  anisotropy_he16_node [⟨0, 1, 2, 4⟩, ⟨90, 3, 5, 8⟩]
    (by simp [List.chain'_cons])
    (Row.mk 0 1 2 4) (by simp)

/-- C5: the he16 cache is filled from the static table on first use and
never changes afterwards, and a second call with the same inclination
returns the same value as the first. -/
theorem anisotropy_he16_idempotent (tbl : List Row)
    (cache : Option (List Row)) (inc : Incl) :
    (anisotropy tbl (anisotropy tbl cache inc "he16").2.1 inc "he16").1 =
      (anisotropy tbl cache inc "he16").1 ∧
    (anisotropy tbl (anisotropy tbl cache inc "he16").2.1 inc "he16").2.1 =
      (anisotropy tbl cache inc "he16").2.1 ∧
    (anisotropy tbl cache inc "he16").2.1 = some (cache.getD tbl) := by
  cases hI : interpTable (cache.getD tbl) inc.toDegrees with
  | none => simp [anisotropy_he16_unfold, hI]
  | some v =>
    obtain ⟨v1, v2, v3⟩ := v
    simp [anisotropy_he16_unfold, hI]

/-- C6: with an empty cache, a he16 query outside the angular domain of
the strictly increasing reference table raises (the interpolator rejects
it); no extrapolated value is returned. -/
theorem anisotropy_he16_out_of_domain (tbl : List Row)
    (hs : List.Chain' (fun u v => u.x < v.x) tbl)
    (a z : Row) (hhead : tbl.head? = some a) (hlast : tbl.getLast? = some z)
    (q : ℝ) (hq : q < a.x ∨ z.x < q) :
    (anisotropy tbl none (Incl.quantity q AngleUnit.degree) "he16").1 =
      AniRet.raise := by
  have hI : interpTable tbl (Incl.quantity q AngleUnit.degree).toDegrees =
      none := by
    rcases hq with hlo | hhi
    · cases tbl with
      | nil => simp at hhead
      | cons a0 tail =>
        have ha0 : a0 = a := by simpa using hhead
        subst ha0
        exact interpTable_below a0 tail q hlo
    · exact interpTable_above tbl hs z hlast q hhi
  simp [anisotropy_he16_unfold, hI]

/-- Witness for C6 at a concrete two-row table and the query 200. -/
theorem anisotropy_he16_out_of_domain_witness :
    (anisotropy [⟨0, 1, 2, 4⟩, ⟨90, 3, 5, 8⟩] none
        (Incl.quantity 200 AngleUnit.degree) "he16").1 = AniRet.raise :=
  anisotropy_he16_out_of_domain [⟨0, 1, 2, 4⟩, ⟨90, 3, 5, 8⟩]
    (by simp [List.chain'_cons])
    (Row.mk 0 1 2 4) (Row.mk 90 3 5 8) (by simp) (by simp [List.getLast?])
    200 (by right; norm_num)

/-- The parameter vector built by setup_positions in src/ctools.py: a copy
of params0 followed by one appended tshift entry per observed burst
(the loop for i in range(len(obs)): params.append(tshift)). -/
def setup_params (params0 : List ℝ) (nobs : ℕ) (tshift : ℝ) : List ℝ :=
  (List.range nobs).foldl (fun ps _ => ps ++ [tshift]) params0

/-- setup_positions of src/ctools.py: one position per walker, each the
parameter vector perturbed entrywise by the walker's random draw (the
list is broadcast against the numpy array 1 + mag * randn(ndim)). -/
noncomputable def setup_positions {α : Type} (obs : List α) (nwalkers : ℕ)
    (params0 : List ℝ) (tshift mag : ℝ) (randn : ℕ → ℕ → ℝ) :
    List (List ℝ) :=
  (List.range nwalkers).map (fun w =>
    (List.range (setup_params params0 obs.length tshift).length).map
      (fun j => (setup_params params0 obs.length tshift).getD j 0
        * (1 + mag * randn w j)))

/-- The appended parameter vector in closed form. -/
theorem setup_params_eq (params0 : List ℝ) (nobs : ℕ) (tshift : ℝ) :
    setup_params params0 nobs tshift =
      params0 ++ List.replicate nobs tshift := by
  induction nobs with
  | zero => simp [setup_params]
  | succ n ih =>
    unfold setup_params at ih ⊢
    rw [List.range_succ, List.foldl_append, ih]
    simp only [List.foldl_cons, List.foldl_nil, List.append_assoc]
    rw [← List.replicate_succ']

/-- C8: for a tuple of N observed bursts and the three-entry initial
guess (distance, inclination, 1+z), setup_positions returns nwalkers
positions, each of dimension 3 + N; the underlying parameter vector is
the initial guess followed by exactly one time-shift entry per epoch, the
entry of index 3 + k holding the time shift of epoch k. -/
theorem setup_positions_layout {α : Type} (obs : List α) (nwalkers : ℕ)
    (d i z tshift mag : ℝ) (randn : ℕ → ℕ → ℝ) :
    (setup_positions obs nwalkers [d, i, z] tshift mag randn).length =
      nwalkers ∧
    (∀ p ∈ setup_positions obs nwalkers [d, i, z] tshift mag randn,
      p.length = 3 + obs.length) ∧
    setup_params [d, i, z] obs.length tshift =
      [d, i, z] ++ List.replicate obs.length tshift ∧
    (∀ k < obs.length,
      (setup_params [d, i, z] obs.length tshift).getD (3 + k) 0 = tshift) := by
  have hlen : (setup_params [d, i, z] obs.length tshift).length =
      3 + obs.length := by
    rw [setup_params_eq]
    simp
    omega
  refine ⟨?_, ?_, setup_params_eq [d, i, z] obs.length tshift, ?_⟩
  · simp [setup_positions]
  · intro p hp
    simp only [setup_positions, List.mem_map] at hp
    obtain ⟨w, _, rfl⟩ := hp
    simp [hlen]
  · intro k hk
    rw [setup_params_eq]
    rw [List.getD_append_right _ _ _ _ (by simp)]
    simp only [List.length_cons, List.length_nil]
    have : 3 + k - 3 = k := by omega
    rw [this]
    simp [List.getD_eq_getElem?_getD, List.getElem?_replicate, hk]

/-- The heap of Python list objects: each reference is an index into the
heap, holding the current contents of that list. -/
abbrev Heap : Type := List (List ℝ)

/-- Dereference a list object. -/
def heapRead (h : Heap) (r : ℕ) : List ℝ :=
  List.getD h r []

/-- list(params0): allocate a fresh copy of the referenced list, returning
the new heap and the reference to the copy. -/
def heapCopy (h : Heap) (r : ℕ) : Heap × ℕ :=
  (h ++ [heapRead h r], List.length h)

/-- params.append(x): in-place append on the referenced list object. -/
def heapAppend (h : Heap) (r : ℕ) (x : ℝ) : Heap :=
  List.set h r (heapRead h r ++ [x])

/-- The mutation trace of setup_positions in src/ctools.py against the
heap model: params = list(params0), then one in-place append of tshift
per observed burst; returns the final heap and the reference holding the
params list. -/
def setup_positions_heap (h : Heap) (r0 : ℕ) (nobs : ℕ) (tshift : ℝ) :
    Heap × ℕ :=
  ((List.range nobs).foldl
      (fun hh _ => heapAppend hh (heapCopy h r0).2 tshift) (heapCopy h r0).1,
    (heapCopy h r0).2)

/-- Reading inside the bounds of the heap. -/
theorem heapRead_lt (hh : Heap) (r : ℕ) (hr : r < List.length hh) :
    heapRead hh r = hh.get ⟨r, hr⟩ := by
  unfold heapRead
  rw [List.getD_eq_getElem?_getD, List.getElem?_eq_getElem hr]
  rfl

/-- Writing back the value just read leaves the heap unchanged. -/
theorem set_read_self (hh : Heap) (r : ℕ) (hr : r < List.length hh) :
    List.set hh r (heapRead hh r) = hh := by
  apply List.ext_getElem?
  intro n
  by_cases hn : r = n
  · subst hn
    rw [List.getElem?_set_self', List.getElem?_eq_getElem hr,
        heapRead_lt hh r hr]
    rfl
  · rw [List.getElem?_set_ne hn]

/-- Reading the object just written. -/
theorem heapRead_set_self (hh : Heap) (r : ℕ) (v : List ℝ)
    (hr : r < List.length hh) :
    heapRead (List.set hh r v) r = v := by
  unfold heapRead
  rw [List.getD_eq_getElem?_getD, List.getElem?_set_self',
      List.getElem?_eq_getElem hr]
  rfl

/-- Writing one object does not disturb a different reference. -/
theorem heapRead_set_ne (hh : Heap) (r r0 : ℕ) (v : List ℝ)
    (hne : r ≠ r0) :
    heapRead (List.set hh r v) r0 = heapRead hh r0 := by
  unfold heapRead
  rw [List.getD_eq_getElem?_getD, List.getElem?_set_ne hne,
      ← List.getD_eq_getElem?_getD]

/-- Repeated in-place appends at one reference, in closed form. -/
theorem foldl_heapAppend (r : ℕ) (x : ℝ) (n : ℕ) (hh : Heap)
    (hr : r < List.length hh) :
    (List.range n).foldl (fun h2 _ => heapAppend h2 r x) hh =
      List.set hh r (heapRead hh r ++ List.replicate n x) := by
  induction n with
  | zero =>
    simp only [List.range_zero, List.foldl_nil, List.replicate_zero,
      List.append_nil]
    exact (set_read_self hh r hr).symm
  | succ n ih =>
    rw [List.range_succ, List.foldl_append, ih]
    simp only [List.foldl_cons, List.foldl_nil]
    unfold heapAppend
    rw [heapRead_set_self hh r _ hr, List.set_set, List.append_assoc,
        ← List.replicate_succ']

/-- The behaviour of one setup_positions call on the heap: the caller's
params0 object is untouched, the fresh params object holds the copy of
params0 followed by one time shift per epoch, and the heap grows by
exactly the one allocated object. -/
theorem setup_positions_heap_spec (h : Heap) (r0 nobs : ℕ) (t : ℝ)
    (hr0 : r0 < List.length h) :
    heapRead (setup_positions_heap h r0 nobs t).1 r0 = heapRead h r0 ∧
    heapRead (setup_positions_heap h r0 nobs t).1
        (setup_positions_heap h r0 nobs t).2 =
      heapRead h r0 ++ List.replicate nobs t ∧
    List.length (setup_positions_heap h r0 nobs t).1 =
      List.length h + 1 := by
  have hcopy2 : (heapCopy h r0).2 = List.length h := rfl
  have hcopy1 : (heapCopy h r0).1 = h ++ [heapRead h r0] := rfl
  have hlen : List.length h < List.length (heapCopy h r0).1 := by
    rw [hcopy1]; simp
  have hreadc : heapRead (heapCopy h r0).1 (List.length h) = heapRead h r0 := by
    rw [hcopy1]
    unfold heapRead
    rw [List.getD_append_right _ _ _ _ (le_refl _)]
    simp
  have hfold : (setup_positions_heap h r0 nobs t).1 =
      List.set (heapCopy h r0).1 (List.length h)
        (heapRead (heapCopy h r0).1 (List.length h) ++ List.replicate nobs t) := by
    unfold setup_positions_heap
    rw [hcopy2]
    exact foldl_heapAppend (List.length h) t nobs (heapCopy h r0).1 hlen
  have hne : List.length h ≠ r0 := ne_of_gt hr0
  refine ⟨?_, ?_, ?_⟩
  · rw [hfold, heapRead_set_ne _ _ _ _ hne, hcopy1]
    unfold heapRead
    rw [List.getD_append _ _ _ _ hr0]
  · have hsnd : (setup_positions_heap h r0 nobs t).2 = List.length h := rfl
    rw [hfold, hsnd, heapRead_set_self _ _ _ hlen, hreadc]
  · rw [hfold, List.length_set, hcopy1]
    simp

/-- C10: setup_positions does not modify its params0 argument: after the
call the caller's list is unchanged, the params object is an independent
copy extended by one time shift per epoch, and a repeated call with the
same number of observations yields a parameter vector of the same
dimension. -/
theorem setup_positions_params0_unchanged (h : Heap) (r0 nobs : ℕ) (t : ℝ)
    (hr0 : r0 < List.length h) :
    heapRead (setup_positions_heap h r0 nobs t).1 r0 = heapRead h r0 ∧
    heapRead (setup_positions_heap h r0 nobs t).1
        (setup_positions_heap h r0 nobs t).2 =
      heapRead h r0 ++ List.replicate nobs t ∧
    List.length (heapRead
        (setup_positions_heap (setup_positions_heap h r0 nobs t).1
          r0 nobs t).1
        (setup_positions_heap (setup_positions_heap h r0 nobs t).1
          r0 nobs t).2) =
      List.length (heapRead (setup_positions_heap h r0 nobs t).1
        (setup_positions_heap h r0 nobs t).2) := by
  obtain ⟨h1, h2, h3⟩ := setup_positions_heap_spec h r0 nobs t hr0
  have hr0' : r0 < List.length (setup_positions_heap h r0 nobs t).1 := by
    rw [h3]; exact lt_trans hr0 (Nat.lt_succ_self _)
  obtain ⟨g1, g2, g3⟩ :=
    setup_positions_heap_spec (setup_positions_heap h r0 nobs t).1 r0 nobs t hr0'
  refine ⟨h1, h2, ?_⟩
  rw [g2, h2, h1]

/-- Witness for C10 on a concrete two-object heap. -/
theorem setup_positions_params0_unchanged_witness :
    heapRead (setup_positions_heap [[6, 60, 1], [5]] 0 2 (-6)).1 0 =
      heapRead [[6, 60, 1], [5]] 0 ∧
    heapRead (setup_positions_heap [[6, 60, 1], [5]] 0 2 (-6)).1
        (setup_positions_heap [[6, 60, 1], [5]] 0 2 (-6)).2 =
      heapRead [[6, 60, 1], [5]] 0 ++ List.replicate 2 (-6) ∧
    List.length (heapRead
        (setup_positions_heap (setup_positions_heap [[6, 60, 1], [5]] 0 2 (-6)).1
          0 2 (-6)).1
        (setup_positions_heap (setup_positions_heap [[6, 60, 1], [5]] 0 2 (-6)).1
          0 2 (-6)).2) =
      List.length (heapRead (setup_positions_heap [[6, 60, 1], [5]] 0 2 (-6)).1
        (setup_positions_heap [[6, 60, 1], [5]] 0 2 (-6)).2) :=
  setup_positions_params0_unchanged [[6, 60, 1], [5]] 0 2 (-6) (by simp)

end Concord
